import Mathlib

/-!
Shallow embedding of `src/marching_cubes.rs` (isosurface crate): the
marching cubes extraction sweep, its two-layer sample cache, the vertex
deduplication call protocol, and the two public extraction entry points.

Modelling conventions:
* `f32` values are modelled as exact rationals (`ℚ`).
* the `u32` vertex counter `index` is modelled as `ℕ` (overflow is
  unreachable for representable meshes).
* the scalar field source is a pure function `ℚ → ℚ → ℚ → ℚ`; the
  normal-capable source additionally has `ℚ → ℚ → ℚ → ℚ × ℚ × ℚ`.
* the emission closures of `extract` / `extract_with_normals` are modelled
  as pure functions from an emitted position to the reals appended to the
  vertex buffer together with the list of `sample_normal` calls made.
* the sweep state also carries instrumentation logs (sample calls made,
  cache `put` calls made, emitted positions) that record the observable
  events of the extraction in order.
-/

/-- Generic preservation of an invariant along a left fold. -/
theorem foldl_inv {α β : Type _} (P : β → Prop) (f : β → α → β) :
    ∀ (l : List α) (s : β), P s → (∀ t a, a ∈ l → P t → P (f t a)) → P (l.foldl f s) := by
  intro l
  induction l with
  | nil => intro s hs _; exact hs
  | cons a t ih =>
      intro s hs hstep
      exact ih (f s a) (hstep s a (List.mem_cons_self a t) hs)
        (fun u b hb hu => hstep u b (List.mem_cons_of_mem a hb) hu)

/-- Modelled from the spec: the three static topology tables (`CORNERS`,
`EDGE_CONNECTION`, `TRIANGLE_CONNECTION`) live in `marching_cubes_tables.rs`,
which is not under `src/`; the spec fixes only their shape (8 corner offsets
with 0/1 components; 12 edges given as pairs of corner ids; 256 rows of up to
5 triangles of 3 edge ids each, terminated by a negative sentinel). The
tables are therefore passed as parameters of the embedding. -/
structure Tables where
  corners : ℕ → ℕ × ℕ × ℕ
  edgeConn : ℕ → ℕ × ℕ
  triConn : ℕ → ℕ → ℤ

/-- Shape constraints a conforming table set must satisfy (spec section 6):
corner offsets are 0/1, edge endpoints are corner ids below 8, triangle
entries are edge ids below 12 or negative sentinels, and the rows for cube
indices 0 and 255 are all-sentinel. -/
def Conforming (tab : Tables) : Prop :=
  (∀ i, i < 8 → (tab.corners i).1 ≤ 1 ∧ (tab.corners i).2.1 ≤ 1 ∧ (tab.corners i).2.2 ≤ 1) ∧
  (∀ v, v < 12 → (tab.edgeConn v).1 < 8 ∧ (tab.edgeConn v).2 < 8) ∧
  (∀ ci, ci < 256 → ∀ k, k < 16 → tab.triConn ci k < 12) ∧
  (∀ i, i < 5 → tab.triConn 0 (3*i) < 0) ∧
  (∀ i, i < 5 → tab.triConn 255 (3*i) < 0)

/-- `fn get_offset(a, b)` (marching_cubes.rs lines 25-28). -/
def get_offset (a b : ℚ) : ℚ :=
  let delta := b - a
  if delta = 0 then 1/2 else -a/delta

/-- `fn interpolate(a, b, t)` (lines 30-32). -/
def interpolate (a b t : ℚ) : ℚ :=
  a * (1 - t) + b * t

/-- The `MarchingCubes` struct (lines 20-23). -/
structure MarchingCubes where
  size : ℕ
  layers : List ℚ × List ℚ

/-- `MarchingCubes::new(size)` (lines 39-44): allocates the two size²
zero-filled layer buffers. No validation of `size` is performed. -/
def MarchingCubes.new (size : ℕ) : MarchingCubes :=
  ⟨size, (List.replicate (size*size) 0, List.replicate (size*size) 0)⟩

/-- A global grid point, used as half of a canonical edge key. -/
abbrev GPoint := ℕ × ℕ × ℕ

/-- A canonical cache key: the unordered pair of global grid corners of an
edge, normalised so the lexicographically smaller corner comes first. -/
abbrev EdgeKey := GPoint × GPoint

/-- The mutable state of one `extract_impl` call, together with
instrumentation logs of the observable events. `indicesLog` pairs every
value pushed onto the output index buffer with the value of the vertex
counter right after the enclosing per-edge step completed. -/
structure ExtState where
  layer0 : List ℚ
  layer1 : List ℚ
  cache : List (EdgeKey × ℕ)
  cacheZ : ℕ
  counter : ℕ
  indicesLog : List (ℕ × ℕ)
  emissions : List (ℚ × ℚ × ℚ)
  vertices : List ℚ
  normalCalls : List (ℚ × ℚ × ℚ)
  sampleCalls : List (ℚ × ℚ × ℚ)
  sampleGrid : List GPoint
  putLog : List (ℕ × ℕ × ℕ × ℕ)

/-- Lexicographic normalisation of an unordered pair of grid points. -/
def canonKey (p q : GPoint) : EdgeKey :=
  if p.1 < q.1 ∨ (p.1 = q.1 ∧ (p.2.1 < q.2.1 ∨ (p.2.1 = q.2.1 ∧ p.2.2 ≤ q.2.2))) then
    (p, q)
  else
    (q, p)

/-- Modelled from the spec: the `IndexCache` (`index_cache.rs`, not under
`src/`). Per spec section 4.3 it maps a (cell, local edge id) key to the
previously assigned vertex index, with the keys of adjacent cubes that
denote the same geometric edge resolving to the same entry; it is modelled
as an association list keyed by the canonical geometric edge, with the
current z tracked by `advance_layer`. `advance_cell` and `advance_row` only
rotate internal storage; retaining all entries is observationally
equivalent for the access pattern of the sweep, because a cube only queries
edges recorded by cubes of the same or the directly preceding row/layer.
Per the src call site (lines 141-142) `get` yields a plain `u32` and
absence is signalled by the value 0. -/
def edgeKeyAt (tab : Tables) (x y z vert : ℕ) : EdgeKey :=
  let u := (tab.edgeConn vert).1
  let v := (tab.edgeConn vert).2
  let cu := tab.corners u
  let cv := tab.corners v
  canonKey (x + cu.1, y + cu.2.1, z + cu.2.2) (x + cv.1, y + cv.2.1, z + cv.2.2)

/-- Association list lookup for the cache model. -/
def cacheLookup : List (EdgeKey × ℕ) → EdgeKey → Option ℕ
  | [], _ => none
  | e :: rest, k => if e.1 = k then some e.2 else cacheLookup rest k

/-- `index_cache.get(x, y, vert)` at the current layer: the stored index,
or 0 when the key is absent (the src call site receives a plain `u32`). -/
def cacheGet (tab : Tables) (st : ExtState) (x y vert : ℕ) : ℕ :=
  (cacheLookup st.cache (edgeKeyAt tab x y st.cacheZ vert)).getD 0

/-- `index_cache.put(x, y, vert, idx)` at the current layer; the put call
is also recorded in the instrumentation log as (x, y, vert, layer). -/
def cachePut (tab : Tables) (st : ExtState) (x y vert idx : ℕ) : ExtState :=
  { st with
    cache := (edgeKeyAt tab x y st.cacheZ vert, idx) :: st.cache,
    putLog := st.putLog ++ [(x, y, vert, st.cacheZ)] }

/-- An emission closure: from the emitted position, the reals appended to
the vertex buffer and the `sample_normal` calls performed. -/
abbrev Emit := ℚ → ℚ → ℚ → List ℚ × List (ℚ × ℚ × ℚ)

/-- The closure of `extract` (lines 56-60): push the three position
components; no normal sampling. -/
def plainEmit : Emit := fun x y z => ([x, y, z], [])

/-- The closure of `extract_with_normals` (lines 73-81): sample the normal
at the emitted position and push position then normal components. -/
def hermiteEmit (sn : ℚ → ℚ → ℚ → ℚ × ℚ × ℚ) : Emit := fun x y z =>
  let nm := sn x y z
  ([x, y, z, nm.1, nm.2.1, nm.2.2], [(x, y, z)])

/-- Lines 119-123: world position of corner `i` of the cube at (x,y,z). -/
def cornerPos (tab : Tables) (w : ℚ) (x y z i : ℕ) : ℚ × ℚ × ℚ :=
  (((x + (tab.corners i).1 : ℕ) : ℚ) * w,
   ((y + (tab.corners i).2.1 : ℕ) : ℚ) * w,
   ((z + (tab.corners i).2.2 : ℕ) : ℚ) * w)

/-- Line 124: the flat layer-buffer index read for corner `i`. -/
def cornerReadIndex (tab : Tables) (size x y i : ℕ) : ℕ :=
  (y + (tab.corners i).2.1) * size + x + (tab.corners i).1

/-- Line 124: `values[i]`, read from `layers[CORNERS[i][2]]`. -/
def cornerVal (tab : Tables) (size x y : ℕ) (layer0 layer1 : List ℚ) (i : ℕ) : ℚ :=
  (if (tab.corners i).2.2 = 0 then layer0 else layer1).getD (cornerReadIndex tab size x y i) 0

/-- Lines 127-132: the 8-bit cube index, bit `i` set iff `values[i] ≤ 0`. -/
def cubeIndexOf (values : ℕ → ℚ) : ℕ :=
  (List.range 8).foldl (fun ci i => if values i ≤ 0 then ci ||| (1 <<< i) else ci) 0

/-- Lines 134-137: the triangle slots processed for a cube index: the loop
over i in 0..5 stops at the first slot whose leading entry is negative. -/
def triList (tab : Tables) (ci : ℕ) : List ℕ :=
  (List.range 5).takeWhile (fun i => !decide (tab.triConn ci (3*i) < 0))

/-- Number of triangles produced for a cube index. -/
def triCount (tab : Tables) (ci : ℕ) : ℕ :=
  (triList tab ci).length

/-- Lines 152-157: the position of the vertex emitted on an edge with
corner positions `cu`, `cv` and corner values `a`, `b`. -/
def interpVertex (cu cv : ℚ × ℚ × ℚ) (a b : ℚ) : ℚ × ℚ × ℚ :=
  let offset := get_offset a b
  (interpolate cu.1 cv.1 offset,
   interpolate cu.2.1 cv.2.1 offset,
   interpolate cu.2.2 cv.2.2 offset)

/-- Lines 140-158: one iteration of the inner `j` loop, for the edge id
`vert`: query the cache; on a hit push the cached index, otherwise record
the fresh index in the cache, push it, bump the counter, and emit the
interpolated vertex through the emission closure. -/
def edgeStep (tab : Tables) (emit : Emit) (cp : ℕ → ℚ × ℚ × ℚ) (values : ℕ → ℚ)
    (x y vert : ℕ) (st : ExtState) : ExtState :=
  let cached_index := cacheGet tab st x y vert
  if 0 < cached_index then
    { st with indicesLog := st.indicesLog ++ [(cached_index, st.counter)] }
  else
    let u := (tab.edgeConn vert).1
    let v := (tab.edgeConn vert).2
    let st1 := cachePut tab st x y vert st.counter
    let st2 := { st1 with
      indicesLog := st1.indicesLog ++ [(st1.counter, st1.counter + 1)],
      counter := st1.counter + 1 }
    let p := interpVertex (cp u) (cp v) (values u) (values v)
    let out := emit p.1 p.2.1 p.2.2
    { st2 with
      emissions := st2.emissions ++ [p],
      vertices := st2.vertices ++ out.1,
      normalCalls := st2.normalCalls ++ out.2 }

/-- Lines 118-161: process one cube at grid origin (x,y,z): gather corner
positions and values, classify, and run the triangle/edge loops.
(`advance_cell`, line 161, rotates no observable cache state in the model.) -/
def cubeStep (tab : Tables) (emit : Emit) (size : ℕ) (w : ℚ) (x y z : ℕ)
    (st : ExtState) : ExtState :=
  let cp := fun i => cornerPos tab w x y z i
  let values := fun i => cornerVal tab size x y st.layer0 st.layer1 i
  let cube_index := cubeIndexOf values
  (triList tab cube_index).foldl (fun t i =>
    (List.range 3).foldl (fun t2 j =>
      edgeStep tab emit cp values x y ((tab.triConn cube_index (3*i + j)).toNat) t2) t) st

/-- One full row-major overwrite of a size×size layer buffer:
`layer[y*size + x] = g x y` for y then x increasing (lines 90-95, 108-112). -/
def layerFillRow (g : ℕ → ℕ → ℚ) (size y : ℕ) (L : List ℚ) : List ℚ :=
  (List.range size).foldl (fun acc x => acc.set (y*size + x) (g x y)) L

/-- The outer y loop of a layer fill. -/
def layerFill (g : ℕ → ℕ → ℚ) (size : ℕ) (L : List ℚ) : List ℚ :=
  (List.range size).foldl (fun acc y => layerFillRow g size y acc) L

/-- The row-major list of grid points visited by one fill loop, tagged with
the z slice index it samples. -/
def gridPoints (size zG : ℕ) : List GPoint :=
  (List.range size).foldl (fun acc y => acc ++ (List.range size).map (fun x => (x, y, zG))) []

/-- The row-major list of normalized sample coordinates passed to
`source.sample` by one fill loop whose z coordinate is `cz`. -/
def sampleLog (size : ℕ) (w cz : ℚ) : List (ℚ × ℚ × ℚ) :=
  (List.range size).foldl
    (fun acc y => acc ++ (List.range size).map (fun x => ((x:ℚ)*w, (y:ℚ)*w, cz))) []

/-- Lines 89-96: fill layer 0 with the z = 0.0 slice (the z coordinate is
passed as the literal 0.0). The layer write and the sample/grid logs are
recorded per fill; the per-iteration effects touch disjoint state fields. -/
def fillZero (src : ℚ → ℚ → ℚ → ℚ) (size : ℕ) (w : ℚ) (st : ExtState) : ExtState :=
  { st with
    layer0 := layerFill (fun x y => src ((x:ℚ)*w) ((y:ℚ)*w) 0) size st.layer0,
    sampleCalls := st.sampleCalls ++ sampleLog size w 0,
    sampleGrid := st.sampleGrid ++ gridPoints size 0 }

/-- Lines 106-113: fill layer 1 with the slice at z coordinate
`(z+1) * one_over_size`. -/
def fillNext (src : ℚ → ℚ → ℚ → ℚ) (size : ℕ) (w : ℚ) (z : ℕ) (st : ExtState) : ExtState :=
  { st with
    layer1 := layerFill (fun x y => src ((x:ℚ)*w) ((y:ℚ)*w) (((z+1 : ℕ) : ℚ)*w)) size st.layer1,
    sampleCalls := st.sampleCalls ++ sampleLog size w (((z+1 : ℕ) : ℚ)*w),
    sampleGrid := st.sampleGrid ++ gridPoints size (z+1) }

/-- Lines 104-168: one iteration of the outer z loop: refill layer 1, run
the cube loops over the (size-1)×(size-1) cell grid, advance the cache
layer (`advance_layer`, line 165) and swap the two layers (line 167). -/
def zStep (tab : Tables) (src : ℚ → ℚ → ℚ → ℚ) (emit : Emit) (size : ℕ) (w : ℚ)
    (st : ExtState) (z : ℕ) : ExtState :=
  let sa := fillNext src size w z st
  let sb := (List.range (size - 1)).foldl (fun t y =>
    (List.range (size - 1)).foldl (fun t2 x => cubeStep tab emit size w x y z t2) t) sa
  let sc := { sb with cacheZ := sb.cacheZ + 1 }
  { sc with layer0 := sc.layer1, layer1 := sc.layer0 }

/-- The state at entry of `extract_impl`: the layers carried by the struct,
a fresh `IndexCache` (line 101), the vertex counter at 0 (line 102) and
empty logs. -/
def initState (m : MarchingCubes) : ExtState :=
  ⟨m.layers.1, m.layers.2, [], 0, 0, [], [], [], [], [], [], []⟩

/-- `extract_impl` (lines 84-169). For size < 2 the Rust expressions
`self.size - 1` (usize) and `1.0 / 0.0` (f32) still evaluate and no
fail-fast path exists; truncated `ℕ` subtraction and total `ℚ` division
stand in for them (no emitted output depends on `w` in that regime, since
the cube loops are empty). -/
def extractImpl (tab : Tables) (src : ℚ → ℚ → ℚ → ℚ) (emit : Emit) (m : MarchingCubes) :
    ExtState :=
  let size_minus_one := m.size - 1
  let one_over_size : ℚ := 1 / (size_minus_one : ℚ)
  let st := fillZero src m.size one_over_size (initState m)
  (List.range m.size).foldl (fun t z => zStep tab src emit m.size one_over_size t z) st

/-- `extract` (lines 54-61): appends positions (3 reals per vertex) to the
given vertex buffer and the triangle indices to the given index buffer. -/
def MarchingCubes.extract (tab : Tables) (src : ℚ → ℚ → ℚ → ℚ) (m : MarchingCubes)
    (vertices : List ℚ) (indices : List ℕ) : MarchingCubes × List ℚ × List ℕ :=
  let st := extractImpl tab src plainEmit m
  (⟨m.size, (st.layer0, st.layer1)⟩, vertices ++ st.vertices,
    indices ++ st.indicesLog.map Prod.fst)

/-- `extract_with_normals` (lines 71-82): appends position and normal
(6 reals per vertex) to the given vertex buffer. -/
def MarchingCubes.extractWithNormals (tab : Tables) (src : ℚ → ℚ → ℚ → ℚ)
    (sn : ℚ → ℚ → ℚ → ℚ × ℚ × ℚ) (m : MarchingCubes)
    (vertices : List ℚ) (indices : List ℕ) : MarchingCubes × List ℚ × List ℕ :=
  let st := extractImpl tab src (hermiteEmit sn) m
  (⟨m.size, (st.layer0, st.layer1)⟩, vertices ++ st.vertices,
    indices ++ st.indicesLog.map Prod.fst)

/-- Modelled from the spec: a concrete conforming table instance used for
concrete evaluations (the crate's `marching_cubes_tables.rs` is not under
`src/`; only the table shape is specified). Corner numbering follows the
standard marching cubes convention. -/
def specCorners : ℕ → ℕ × ℕ × ℕ
  | 0 => (0, 0, 0)
  | 1 => (1, 0, 0)
  | 2 => (1, 1, 0)
  | 3 => (0, 1, 0)
  | 4 => (0, 0, 1)
  | 5 => (1, 0, 1)
  | 6 => (1, 1, 1)
  | _ => (0, 1, 1)

/-- Modelled from the spec: the standard 12-edge table, each edge a pair of
corner ids. -/
def specEdges : ℕ → ℕ × ℕ
  | 0 => (0, 1)
  | 1 => (1, 2)
  | 2 => (2, 3)
  | 3 => (3, 0)
  | 4 => (4, 5)
  | 5 => (5, 6)
  | 6 => (6, 7)
  | 7 => (7, 4)
  | 8 => (0, 4)
  | 9 => (1, 5)
  | 10 => (2, 6)
  | _ => (3, 7)

/-- Modelled from the spec: the triangle row for cube index 3 (corners 0
and 1 inside): a quad as two triangles sharing edges 1 and 8, then the
sentinel. -/
def specTriRow3 : ℕ → ℤ
  | 0 => 1
  | 1 => 8
  | 2 => 3
  | 3 => 9
  | 4 => 8
  | 5 => 1
  | _ => -1

/-- Modelled from the spec: a conforming table instance with the triangle
row populated only for cube index 3; all other rows (in particular 0 and
255) are all-sentinel. -/
def specTables : Tables :=
  ⟨specCorners, specEdges, fun ci k => if ci = 3 then specTriRow3 k else -1⟩

set_option maxRecDepth 8192 in
/-- The concrete table instance conforms to the shape constraints. -/
theorem specTables_conforming : Conforming specTables := by
  refine ⟨?_, ?_, ?_, ?_, ?_⟩ <;> decide

/-- A field that is inside (-1) exactly on the y = 0, z = 0 grid edge and
outside (+1) elsewhere; at size 2 the single z = 0 cube gets cube index 3. -/
def srcC1 : ℚ → ℚ → ℚ → ℚ := fun _ y z => if y = 0 ∧ z = 0 then -1 else 1

/-- A constant, everywhere-outside field. -/
def srcConst : ℚ → ℚ → ℚ → ℚ := fun _ _ _ => 1

set_option maxRecDepth 16384 in
/-- Claim C1 (code_bug evidence): at the concrete failing input (size 2,
conforming tables whose triangle row for cube index 3 is the standard quad
(1,8,3),(9,8,1), and a field that is inside exactly on the y = 0, z = 0
grid edge), the z = 0 cube requests edge 1 twice. The vertex for key
(x=0, y=0, edge=1) was assigned index 0, so on the second request `get`
returns 0, the src test `cached_index > 0` (line 142) misclassifies it as
absent, a second vertex is emitted for the same key (5 emissions for only
4 distinct keys) and `put` is called twice for that key within z-layer 0 —
contradicting the claimed write-once/deduplication invariant precisely for
the vertex whose assigned index is 0. -/
theorem claim_C1_duplicate_vertex :
    (extractImpl specTables srcC1 plainEmit (MarchingCubes.new 2)).putLog.count (0, 0, 1, 0) = 2 ∧
    (extractImpl specTables srcC1 plainEmit (MarchingCubes.new 2)).emissions.length = 5 ∧
    (extractImpl specTables srcC1 plainEmit (MarchingCubes.new 2)).indicesLog.map Prod.fst
      = [0, 1, 2, 3, 1, 4] := by
  refine ⟨?_, ?_, ?_⟩ <;> with_unfolding_all decide

set_option maxRecDepth 16384 in
/-- Claim C2 (code_bug evidence): at size 2 the outer z loop (line 104,
`for z in 0..self.size`) performs a layer refill at its last step
z = size-1 = 1, sampling the source at normalized z = (z+1)/(size-1) = 2,
outside [0,1] — contradicting the claim (and the doc comment on `extract`,
lines 48-49) that every sample call has all coordinates in [0,1]. -/
theorem claim_C2_out_of_range :
    ((0 : ℚ), (0 : ℚ), (2 : ℚ)) ∈
      (extractImpl specTables srcConst plainEmit (MarchingCubes.new 2)).sampleCalls ∧
    (0, 0, 2) ∈ (extractImpl specTables srcConst plainEmit (MarchingCubes.new 2)).sampleGrid ∧
    ¬ ((2 : ℚ) ≤ 1) := by
  refine ⟨?_, ?_, ?_⟩ <;> with_unfolding_all decide

set_option maxRecDepth 16384 in
/-- Claim C3 (counterexample): constructing a `MarchingCubes` with
resolution size = 1 < 2 is not rejected: `new 1` succeeds and yields a
live instance (`new` has no failure path at all), and running the
extraction on it does sample the source, twice, with the denominator
size-1 = 0 in the coordinate normalisation (in the Rust f32 arithmetic
`one_over_size` is 1.0/0.0) — contradicting both the fail-fast rejection
and the no-out-of-range-sampling / no-division-by-zero parts of the
claim. -/
theorem claim_C3_counterexample :
    (MarchingCubes.new 1).size = 1 ∧
    (MarchingCubes.new 1).layers.1.length = 1 ∧
    (MarchingCubes.new 1).layers.2.length = 1 ∧
    (extractImpl specTables srcConst plainEmit (MarchingCubes.new 1)).sampleGrid
      = [(0, 0, 0), (0, 0, 1)] ∧
    1 - 1 = 0 := by
  refine ⟨?_, ?_, ?_, ?_, ?_⟩ <;> with_unfolding_all decide

/-- Bit characterisation of the partial cube-index fold: after folding the
first n corners, bit i is set iff i < n and corner i is inside. -/
theorem cubeIndexOf_bits (values : ℕ → ℚ) :
    ∀ n i, ((List.range n).foldl (fun c j => if values j ≤ 0 then c ||| (1 <<< j) else c) 0).testBit i
      = (decide (i < n) && decide (values i ≤ 0)) := by
  intro n
  induction n with
  | zero => intro i; simp
  | succ n ih =>
      intro i
      rw [List.range_succ, List.foldl_append, List.foldl_cons, List.foldl_nil]
      by_cases hv : values n ≤ 0
      · rw [if_pos hv, Nat.testBit_lor, ih, Nat.one_shiftLeft]
        by_cases hi : i = n
        · subst hi
          simp [Nat.testBit_two_pow_self, hv]
        · rw [Nat.testBit_two_pow_of_ne (fun h => hi h.symm)]
          have hd : decide (i < n + 1) = decide (i < n) := decide_eq_decide.mpr (by omega)
          rw [Bool.or_false, hd]
      · rw [if_neg hv, ih]
        by_cases hi : i = n
        · subst hi
          simp [hv]
        · have hd : decide (i < n + 1) = decide (i < n) := decide_eq_decide.mpr (by omega)
          rw [hd]

/-- Claim C4: for every corner-value assignment used during extraction, the
8-bit cube index computed at lines 127-132 has bit i (i < 8) set if and
only if corner i's sampled value is ≤ 0; in particular a value of exactly
0 is classified as inside. `cubeIndexOf` is exactly the classification the
sweep applies to each visited cube (see `cubeStep`). -/
theorem claim_C4 (values : ℕ → ℚ) (i : ℕ) (h : i < 8) :
    ((cubeIndexOf values).testBit i = true) ↔ values i ≤ 0 := by
  unfold cubeIndexOf
  rw [cubeIndexOf_bits]
  simp [h]

/-- Witness for C4 at the concrete all-zero corner assignment and bit 3:
the boundary value 0 counts as inside. -/
theorem claim_C4_witness :
    (3 < 8) ∧ (((cubeIndexOf (fun _ => (0:ℚ))).testBit 3 = true) ↔ ((fun _ : ℕ => (0:ℚ)) 3 ≤ 0)) :=
  ⟨by norm_num, claim_C4 (fun _ => (0:ℚ)) 3 (by norm_num)⟩

/-- Claim C5: the interpolation offset of lines 25-28 is 1/2 exactly when
b - a = 0 (taking that branch performs no division), and -a/(b-a)
otherwise (the divisor is nonzero there); each emitted vertex coordinate
(lines 152-157) is the per-axis interpolation a_i*(1-t) + b_i*t between
the two corner positions of the edge. -/
theorem claim_C5 (a b : ℚ) :
    (b - a = 0 → get_offset a b = 1/2) ∧
    (b - a ≠ 0 → get_offset a b = -a / (b - a)) ∧
    (∀ x y t : ℚ, interpolate x y t = x * (1 - t) + y * t) ∧
    (∀ cu cv : ℚ × ℚ × ℚ, interpVertex cu cv a b =
      (interpolate cu.1 cv.1 (get_offset a b), interpolate cu.2.1 cv.2.1 (get_offset a b),
       interpolate cu.2.2 cv.2.2 (get_offset a b))) := by
  refine ⟨?_, ?_, fun x y t => rfl, fun cu cv => rfl⟩
  · intro h
    simp [get_offset, h]
  · intro h
    simp [get_offset, h]

/-- Witness for C5: a degenerate edge (a = b = 1) resolves to offset 1/2,
and a non-degenerate edge (a = 1, b = 3) to -a/(b-a). -/
theorem claim_C5_witness :
    get_offset (1:ℚ) 1 = 1/2 ∧ get_offset (1:ℚ) 3 = -1 / ((3:ℚ) - 1) :=
  ⟨(claim_C5 1 1).1 (by norm_num), (claim_C5 1 3).2.1 (by norm_num)⟩

/-- Claim C6: the per-cube triangle loop (lines 134-137) processes the
leading entries of the cube's triangle row until the first negative
sentinel in a leading slot, hence between 0 and 5 triangles per cube; for
conforming tables the rows of cube indices 0 and 255 are all-sentinel and
yield zero triangles. `triList` is exactly the slot list the sweep
iterates for each visited cube (see `cubeStep`). -/
theorem claim_C6 (tab : Tables) (ci : ℕ) :
    triCount tab ci ≤ 5 ∧
    (Conforming tab → triCount tab 0 = 0 ∧ triCount tab 255 = 0) := by
  constructor
  · have h : (triList tab ci).Sublist (List.range 5) := List.takeWhile_sublist _
    have h2 := h.length_le
    simpa [triCount, List.length_range] using h2
  · intro hc
    have h0 : tab.triConn 0 0 < 0 := by
      have := hc.2.2.2.1 0 (by norm_num)
      simpa using this
    have h255 : tab.triConn 255 0 < 0 := by
      have := hc.2.2.2.2 0 (by norm_num)
      simpa using this
    have hr : List.range 5 = 0 :: [1, 2, 3, 4] := rfl
    constructor
    · simp [triCount, triList, hr, List.takeWhile_cons, h0]
    · simp [triCount, triList, hr, List.takeWhile_cons, h255]

/-- Witness for C6 at the concrete conforming table instance. -/
theorem claim_C6_witness :
    triCount specTables 3 ≤ 5 ∧ triCount specTables 0 = 0 ∧ triCount specTables 255 = 0 :=
  ⟨(claim_C6 specTables 3).1, ((claim_C6 specTables 0).2 specTables_conforming).1,
   ((claim_C6 specTables 255).2 specTables_conforming).2⟩

/-- Concatenation of per-element blocks, in order. -/
def blocks {α β : Type _} (f : α → List β) : List α → List β
  | [] => []
  | a :: t => f a ++ blocks f t

/-- Appending one element appends its block. -/
theorem blocks_append {α β : Type _} (f : α → List β) (l : List α) (a : α) :
    blocks f (l ++ [a]) = blocks f l ++ f a := by
  induction l with
  | nil => simp [blocks]
  | cons b t ih => simp [blocks, ih]

/-- Singleton blocks flatten to the original list. -/
theorem blocks_singleton {α : Type _} (l : List α) : blocks (fun a => [a]) l = l := by
  induction l with
  | nil => rfl
  | cons a t ih => simp [blocks, ih]

/-- Blocks of constant length k concatenate to length k * n. -/
theorem blocks_length {α β : Type _} (f : α → List β) (k : ℕ) (hf : ∀ a, (f a).length = k) :
    ∀ l : List α, (blocks f l).length = k * l.length := by
  intro l
  induction l with
  | nil => simp [blocks]
  | cons a t ih => simp [blocks, ih, hf a, Nat.mul_succ, Nat.add_comm]

/-- The vertex buffer and the normal-call log are exactly the per-emission
blocks produced by the emission closure, in emission order. -/
def EmitInv (emit : Emit) (st : ExtState) : Prop :=
  st.vertices = blocks (fun p => (emit p.1 p.2.1 p.2.2).1) st.emissions ∧
  st.normalCalls = blocks (fun p => (emit p.1 p.2.1 p.2.2).2) st.emissions

theorem emitInv_edgeStep (tab : Tables) (emit : Emit) (cp : ℕ → ℚ × ℚ × ℚ)
    (values : ℕ → ℚ) (x y vert : ℕ) (st : ExtState) (h : EmitInv emit st) :
    EmitInv emit (edgeStep tab emit cp values x y vert st) := by
  obtain ⟨h1, h2⟩ := h
  unfold edgeStep
  dsimp only
  split
  · exact ⟨h1, h2⟩
  · constructor
    · show st.vertices ++ _ = blocks _ (st.emissions ++ [_])
      rw [blocks_append, h1]
    · show st.normalCalls ++ _ = blocks _ (st.emissions ++ [_])
      rw [blocks_append, h2]

theorem emitInv_cubeStep (tab : Tables) (emit : Emit) (size : ℕ) (w : ℚ) (x y z : ℕ)
    (st : ExtState) (h : EmitInv emit st) : EmitInv emit (cubeStep tab emit size w x y z st) := by
  unfold cubeStep
  refine foldl_inv (EmitInv emit) _ _ _ h ?_
  intro t i _ ht
  refine foldl_inv (EmitInv emit) _ _ _ ht ?_
  intro t2 j _ ht2
  exact emitInv_edgeStep _ _ _ _ _ _ _ _ ht2

theorem emitInv_zStep (tab : Tables) (src : ℚ → ℚ → ℚ → ℚ) (emit : Emit) (size : ℕ)
    (w : ℚ) (st : ExtState) (z : ℕ) (h : EmitInv emit st) :
    EmitInv emit (zStep tab src emit size w st z) := by
  have h1 : EmitInv emit (fillNext src size w z st) := h
  exact foldl_inv (EmitInv emit)
    (fun t yy => List.foldl (fun t2 xx => cubeStep tab emit size w xx yy z t2) t
      (List.range (size - 1)))
    (List.range (size - 1)) (fillNext src size w z st) h1
    (fun t yy _ ht => foldl_inv (EmitInv emit)
      (fun t2 xx => cubeStep tab emit size w xx yy z t2) (List.range (size - 1)) t ht
      (fun t2 xx _ ht2 => emitInv_cubeStep tab emit size w xx yy z t2 ht2))

/-- Every extraction state satisfies the emission-block invariant. -/
theorem extractImpl_emitInv (tab : Tables) (src : ℚ → ℚ → ℚ → ℚ) (emit : Emit)
    (m : MarchingCubes) : EmitInv emit (extractImpl tab src emit m) := by
  have h0 : EmitInv emit (fillZero src m.size (1 / ((m.size - 1 : ℕ) : ℚ)) (initState m)) :=
    ⟨rfl, rfl⟩
  exact foldl_inv (EmitInv emit)
    (fun t z => zStep tab src emit m.size (1 / ((m.size - 1 : ℕ) : ℚ)) t z)
    (List.range m.size) (fillZero src m.size (1 / ((m.size - 1 : ℕ) : ℚ)) (initState m)) h0
    (fun t z _ ht => emitInv_zStep tab src emit m.size (1 / ((m.size - 1 : ℕ) : ℚ)) t z ht)

/-- Claim C9: in normal-carrying mode (`extract_with_normals`, lines
71-82), `sample_normal` is called exactly once per newly emitted vertex,
at the exact interpolated vertex position (the call log equals the
emission log), and the vertex buffer consists of 6-real groups per vertex:
the three position components immediately followed by the three components
of the normal sampled at that same position. -/
theorem claim_C9 (tab : Tables) (src : ℚ → ℚ → ℚ → ℚ) (sn : ℚ → ℚ → ℚ → ℚ × ℚ × ℚ)
    (m : MarchingCubes) :
    (extractImpl tab src (hermiteEmit sn) m).normalCalls
      = (extractImpl tab src (hermiteEmit sn) m).emissions ∧
    (extractImpl tab src (hermiteEmit sn) m).vertices
      = blocks (fun p => [p.1, p.2.1, p.2.2,
          (sn p.1 p.2.1 p.2.2).1, (sn p.1 p.2.1 p.2.2).2.1, (sn p.1 p.2.1 p.2.2).2.2])
        (extractImpl tab src (hermiteEmit sn) m).emissions ∧
    (extractImpl tab src (hermiteEmit sn) m).vertices.length
      = 6 * (extractImpl tab src (hermiteEmit sn) m).emissions.length := by
  obtain ⟨h1, h2⟩ := extractImpl_emitInv tab src (hermiteEmit sn) m
  refine ⟨?_, ?_, ?_⟩
  · rw [h2]
    exact blocks_singleton _
  · exact h1
  · rw [h1]
    refine blocks_length _ 6 ?_ _
    intro a
    rfl

/-- A successful cache lookup returns a stored entry's value. -/
theorem cacheLookup_mem : ∀ (c : List (EdgeKey × ℕ)) (k : EdgeKey) (v : ℕ),
    cacheLookup c k = some v → ∃ e ∈ c, e.2 = v := by
  intro c
  induction c with
  | nil => intro k v h; simp [cacheLookup] at h
  | cons e rest ih =>
      intro k v h
      unfold cacheLookup at h
      split at h
      · exact ⟨e, List.mem_cons_self _ _, Option.some.inj h⟩
      · obtain ⟨e2, he2, hv⟩ := ih k v h
        exact ⟨e2, List.mem_cons_of_mem _ he2, hv⟩

/-- The counter invariant of the sweep: every cached index was assigned
strictly before the current counter value, every index pushed so far is
strictly below the counter value recorded right after its push step
completed (which never exceeds the current counter), and the counter
equals the number of vertices emitted so far. -/
def CtrInv (st : ExtState) : Prop :=
  (∀ e ∈ st.cache, e.2 < st.counter) ∧
  (∀ p ∈ st.indicesLog, p.1 < p.2 ∧ p.2 ≤ st.counter) ∧
  st.counter = st.emissions.length

theorem ctrInv_edgeStep (tab : Tables) (emit : Emit) (cp : ℕ → ℚ × ℚ × ℚ)
    (values : ℕ → ℚ) (x y vert : ℕ) (st : ExtState) (h : CtrInv st) :
    CtrInv (edgeStep tab emit cp values x y vert st) := by
  obtain ⟨hc, hl, hn⟩ := h
  unfold edgeStep
  dsimp only [cachePut]
  split
  · rename_i hpos
    refine ⟨hc, ?_, hn⟩
    intro p hp
    rcases List.mem_append.mp hp with h1 | h2
    · exact hl p h1
    · have hp2 : p = (cacheGet tab st x y vert, st.counter) := by simpa using h2
      subst hp2
      refine ⟨?_, le_refl st.counter⟩
      cases hh : cacheLookup st.cache (edgeKeyAt tab x y st.cacheZ vert) with
      | none =>
          rw [cacheGet, hh] at hpos
          simp at hpos
      | some v =>
          obtain ⟨e, he, hev⟩ := cacheLookup_mem _ _ _ hh
          have hlt := hc e he
          show cacheGet tab st x y vert < st.counter
          rw [cacheGet, hh]
          simpa [hev] using hlt
  · refine ⟨?_, ?_, ?_⟩
    · intro e he
      rcases List.mem_cons.mp he with h1 | h2
      · rw [h1]
        exact Nat.lt_succ_self _
      · exact Nat.lt_succ_of_lt (hc e h2)
    · intro p hp
      rcases List.mem_append.mp hp with h1 | h2
      · obtain ⟨ha, hb⟩ := hl p h1
        exact ⟨ha, Nat.le_succ_of_le hb⟩
      · have hp2 : p = (st.counter, st.counter + 1) := by simpa using h2
        rw [hp2]
        exact ⟨Nat.lt_succ_self _, le_refl _⟩
    · show st.counter + 1 = _
      rw [List.length_append, ← hn]
      rfl

theorem ctrInv_cubeStep (tab : Tables) (emit : Emit) (size : ℕ) (w : ℚ) (x y z : ℕ)
    (st : ExtState) (h : CtrInv st) : CtrInv (cubeStep tab emit size w x y z st) := by
  unfold cubeStep
  refine foldl_inv CtrInv _ _ _ h ?_
  intro t i _ ht
  refine foldl_inv CtrInv _ _ _ ht ?_
  intro t2 j _ ht2
  exact ctrInv_edgeStep _ _ _ _ _ _ _ _ ht2

theorem ctrInv_zStep (tab : Tables) (src : ℚ → ℚ → ℚ → ℚ) (emit : Emit) (size : ℕ)
    (w : ℚ) (st : ExtState) (z : ℕ) (h : CtrInv st) : CtrInv (zStep tab src emit size w st z) := by
  have h1 : CtrInv (fillNext src size w z st) := h
  exact foldl_inv CtrInv
    (fun t yy => List.foldl (fun t2 xx => cubeStep tab emit size w xx yy z t2) t
      (List.range (size - 1)))
    (List.range (size - 1)) (fillNext src size w z st) h1
    (fun t yy _ ht => foldl_inv CtrInv
      (fun t2 xx => cubeStep tab emit size w xx yy z t2) (List.range (size - 1)) t ht
      (fun t2 xx _ ht2 => ctrInv_cubeStep tab emit size w xx yy z t2 ht2))

/-- Every extraction state satisfies the counter invariant. -/
theorem extractImpl_ctrInv (tab : Tables) (src : ℚ → ℚ → ℚ → ℚ) (emit : Emit)
    (m : MarchingCubes) : CtrInv (extractImpl tab src emit m) := by
  have h0 : CtrInv (fillZero src m.size (1 / ((m.size - 1 : ℕ) : ℚ)) (initState m)) := by
    refine ⟨?_, ?_, rfl⟩ <;> intro e he <;> simp [initState, fillZero] at he
  exact foldl_inv CtrInv
    (fun t z => zStep tab src emit m.size (1 / ((m.size - 1 : ℕ) : ℚ)) t z)
    (List.range m.size) (fillZero src m.size (1 / ((m.size - 1 : ℕ) : ℚ)) (initState m)) h0
    (fun t z _ ht => ctrInv_zStep tab src emit m.size (1 / ((m.size - 1 : ℕ) : ℚ)) t z ht)

/-- Claim C7: for every extraction (the output index log starts empty at
lines 101-102), every value pushed onto the index buffer is strictly less
than the number of vertices emitted by the time its push step completed,
which never exceeds the total number of vertices emitted — no triangle
references a vertex that has not been emitted. -/
theorem claim_C7 (tab : Tables) (src : ℚ → ℚ → ℚ → ℚ) (emit : Emit) (m : MarchingCubes) :
    ∀ p ∈ (extractImpl tab src emit m).indicesLog,
      p.1 < p.2 ∧ p.2 ≤ (extractImpl tab src emit m).emissions.length := by
  obtain ⟨hc, hl, hn⟩ := extractImpl_ctrInv tab src emit m
  intro p hp
  obtain ⟨ha, hb⟩ := hl p hp
  exact ⟨ha, hn ▸ hb⟩

/-- Witness for C7: the first pushed index of the concrete size-2 run is 0,
pushed when exactly 1 vertex had been emitted, and 5 vertices are emitted
in total. -/
theorem claim_C7_witness :
    ((0, 1) : ℕ × ℕ) ∈ (extractImpl specTables srcC1 plainEmit (MarchingCubes.new 2)).indicesLog ∧
    (0 < 1 ∧ 1 ≤ (extractImpl specTables srcC1 plainEmit (MarchingCubes.new 2)).emissions.length) :=
  ⟨by with_unfolding_all decide,
   claim_C7 specTables srcC1 plainEmit (MarchingCubes.new 2) (0, 1)
     (by with_unfolding_all decide)⟩

/-- A row fill preserves the buffer length. -/
theorem layerFillRow_length (g : ℕ → ℕ → ℚ) (size y : ℕ) (L : List ℚ) :
    (layerFillRow g size y L).length = L.length := by
  unfold layerFillRow
  refine foldl_inv (fun acc : List ℚ => acc.length = L.length) _ _ _ rfl ?_
  intro t a _ ht
  rw [List.length_set, ht]

/-- A layer fill preserves the buffer length. -/
theorem layerFill_length (g : ℕ → ℕ → ℚ) (size : ℕ) (L : List ℚ) :
    (layerFill g size L).length = L.length := by
  unfold layerFill
  refine foldl_inv (fun acc : List ℚ => acc.length = L.length) _ _ _ rfl ?_
  intro t a _ ht
  rw [layerFillRow_length, ht]

/-- A partial row fill leaves entries outside its written range unchanged. -/
theorem rowFillAux_untouched (g : ℕ → ℕ → ℚ) (s y : ℕ) (L : List ℚ) :
    ∀ n j, (j < y*s ∨ y*s + n ≤ j) →
      ((List.range n).foldl (fun acc x => acc.set (y*s + x) (g x y)) L)[j]? = L[j]? := by
  intro n
  induction n with
  | zero => intro j _; rw [List.range_zero, List.foldl_nil]
  | succ n ih =>
      intro j hj
      rw [List.range_succ, List.foldl_append, List.foldl_cons, List.foldl_nil]
      rw [List.getElem?_set_ne (by omega)]
      exact ih j (by omega)

/-- A partial row fill writes `g x y` at offset `y*s + x` for every written
column x (the later columns of the same row do not overwrite it). -/
theorem rowFillAux_written (g : ℕ → ℕ → ℚ) (s y : ℕ) (L : List ℚ) :
    ∀ n x, x < n → y*s + x < L.length →
      ((List.range n).foldl (fun acc x => acc.set (y*s + x) (g x y)) L)[y*s + x]?
        = some (g x y) := by
  intro n
  induction n with
  | zero => intro x hx; omega
  | succ n ih =>
      intro x hx hlen
      rw [List.range_succ, List.foldl_append, List.foldl_cons, List.foldl_nil]
      by_cases hxn : x = n
      · subst hxn
        have hfl : ((List.range x).foldl (fun acc x => acc.set (y*s + x) (g x y)) L).length
            = L.length := by
          refine foldl_inv (fun acc : List ℚ => acc.length = L.length) _ _ _ rfl ?_
          intro t a _ ht
          rw [List.length_set, ht]
        exact List.getElem?_set_self (by omega)
      · rw [List.getElem?_set_ne (by omega)]
        exact ih x (by omega) hlen

/-- `layerFillRow` leaves entries outside its row range unchanged. -/
theorem layerFillRow_untouched (g : ℕ → ℕ → ℚ) (s y : ℕ) (L : List ℚ) (j : ℕ)
    (h : j < y*s ∨ y*s + s ≤ j) : (layerFillRow g s y L)[j]? = L[j]? :=
  rowFillAux_untouched g s y L s j h

/-- `layerFillRow` writes `g x y` at offset `y*s + x` for every x < s. -/
theorem layerFillRow_written (g : ℕ → ℕ → ℚ) (s y : ℕ) (L : List ℚ) (x : ℕ)
    (hx : x < s) (h : y*s + x < L.length) :
    (layerFillRow g s y L)[y*s + x]? = some (g x y) :=
  rowFillAux_written g s y L s x hx h

/-- A full layer fill writes `g x y` at flat index `y*s + x` for every
x, y < s (later rows write strictly larger indices). -/
theorem layerFill_written (g : ℕ → ℕ → ℚ) (s : ℕ) (L : List ℚ) (hL : L.length = s*s) :
    ∀ m, m ≤ s → ∀ y x, y < m → x < s →
      ((List.range m).foldl (fun acc y => layerFillRow g s y acc) L)[y*s + x]?
        = some (g x y) := by
  intro m
  induction m with
  | zero => intro _ y x hy; omega
  | succ m ih =>
      intro hm y x hy hx
      rw [List.range_succ, List.foldl_append, List.foldl_cons, List.foldl_nil]
      have hfl : ((List.range m).foldl (fun acc y => layerFillRow g s y acc) L).length
          = L.length := by
        refine foldl_inv (fun acc : List ℚ => acc.length = L.length) _ _ _ rfl ?_
        intro t a _ ht
        rw [layerFillRow_length, ht]
      by_cases hym : y = m
      · subst hym
        have hbound : y*s + x < L.length := by
          have h1 : (y+1)*s ≤ s*s := Nat.mul_le_mul_right s hm
          have h2 : y*s + x < (y+1)*s := by
            rw [Nat.succ_mul]
            omega
          omega
        exact layerFillRow_written g s y _ x hx (by omega)
      · have hylt : y < m := by omega
        have hsmall : y*s + x < m*s := by
          have h2 : y*s + x < (y+1)*s := by
            rw [Nat.succ_mul]
            omega
          have h3 : (y+1)*s ≤ m*s := Nat.mul_le_mul_right s (by omega)
          omega
        rw [layerFillRow_untouched g s m _ (y*s + x) (by omega)]
        exact ih (by omega) y x hylt hx

/-- Every flat index below s*s decomposes as a row-major (y, x) pair. -/
theorem flatIndex_rep (s j : ℕ) (h : j < s*s) : ∃ y x, y < s ∧ x < s ∧ j = y*s + x := by
  have hs : 0 < s := by
    by_contra hc
    push_neg at hc
    interval_cases s
    omega
  refine ⟨j / s, j % s, ?_, Nat.mod_lt _ hs, ?_⟩
  · exact (Nat.div_lt_iff_lt_mul hs).mpr h
  · rw [Nat.mul_comm (j / s) s]
    have := Nat.div_add_mod j s
    omega

/-- A full layer fill erases all dependence on the previous buffer
contents: two same-length buffers fill to the same result. -/
theorem layerFill_indep (g : ℕ → ℕ → ℚ) (s : ℕ) (L1 L2 : List ℚ)
    (h1 : L1.length = s*s) (h2 : L2.length = s*s) :
    layerFill g s L1 = layerFill g s L2 := by
  apply List.ext_getElem?
  intro j
  by_cases hj : j < s*s
  · obtain ⟨y, x, hy, hx, rfl⟩ := flatIndex_rep s j hj
    unfold layerFill
    rw [layerFill_written g s L1 h1 s (le_refl s) y x hy hx,
        layerFill_written g s L2 h2 s (le_refl s) y x hy hx]
  · rw [List.getElem?_eq_none (by rw [layerFill_length, h1]; omega),
        List.getElem?_eq_none (by rw [layerFill_length, h2]; omega)]

/-- A per-edge step never touches the layer buffers. -/
theorem edgeStep_layers (tab : Tables) (emit : Emit) (cp : ℕ → ℚ × ℚ × ℚ)
    (values : ℕ → ℚ) (x y vert : ℕ) (st : ExtState) :
    (edgeStep tab emit cp values x y vert st).layer0 = st.layer0 ∧
    (edgeStep tab emit cp values x y vert st).layer1 = st.layer1 := by
  unfold edgeStep
  dsimp only [cachePut]
  split
  · exact ⟨rfl, rfl⟩
  · exact ⟨rfl, rfl⟩

/-- The layer-length invariant of the sweep state. -/
def LayersLen (n : ℕ) (st : ExtState) : Prop :=
  st.layer0.length = n ∧ st.layer1.length = n

theorem layersLen_cubeStep (tab : Tables) (emit : Emit) (size : ℕ) (w : ℚ) (x y z : ℕ)
    (n : ℕ) (st : ExtState) (h : LayersLen n st) : LayersLen n (cubeStep tab emit size w x y z st) := by
  unfold cubeStep
  refine foldl_inv (LayersLen n) _ _ _ h ?_
  intro t i _ ht
  refine foldl_inv (LayersLen n) _ _ _ ht ?_
  intro t2 j _ ht2
  constructor
  · rw [(edgeStep_layers tab emit _ _ x y _ t2).1]
    exact ht2.1
  · rw [(edgeStep_layers tab emit _ _ x y _ t2).2]
    exact ht2.2

theorem layersLen_zStep (tab : Tables) (src : ℚ → ℚ → ℚ → ℚ) (emit : Emit) (size : ℕ)
    (w : ℚ) (z : ℕ) (n : ℕ) (st : ExtState) (h : LayersLen n st) :
    LayersLen n (zStep tab src emit size w st z) := by
  have h1 : LayersLen n (fillNext src size w z st) := by
    constructor
    · exact h.1
    · show (layerFill _ size st.layer1).length = n
      rw [layerFill_length]
      exact h.2
  have h2 := foldl_inv (LayersLen n)
    (fun t yy => List.foldl (fun t2 xx => cubeStep tab emit size w xx yy z t2) t
      (List.range (size - 1)))
    (List.range (size - 1)) (fillNext src size w z st) h1
    (fun t yy _ ht => foldl_inv (LayersLen n)
      (fun t2 xx => cubeStep tab emit size w xx yy z t2) (List.range (size - 1)) t ht
      (fun t2 xx _ ht2 => layersLen_cubeStep tab emit size w xx yy z n t2 ht2))
  exact ⟨h2.2, h2.1⟩

/-- `extract_impl` keeps both layer buffers at their initial length (all
writes are `set`s and the final swap only exchanges the roles). -/
theorem extractImpl_layers_length (tab : Tables) (src : ℚ → ℚ → ℚ → ℚ) (emit : Emit)
    (m : MarchingCubes) (n : ℕ) (h1 : m.layers.1.length = n) (h2 : m.layers.2.length = n) :
    (extractImpl tab src emit m).layer0.length = n ∧
    (extractImpl tab src emit m).layer1.length = n := by
  have h0 : LayersLen n (fillZero src m.size (1 / ((m.size - 1 : ℕ) : ℚ)) (initState m)) := by
    constructor
    · show (layerFill _ m.size (initState m).layer0).length = n
      rw [layerFill_length]
      exact h1
    · exact h2
  exact foldl_inv (LayersLen n)
    (fun t z => zStep tab src emit m.size (1 / ((m.size - 1 : ℕ) : ℚ)) t z)
    (List.range m.size) (fillZero src m.size (1 / ((m.size - 1 : ℕ) : ℚ)) (initState m)) h0
    (fun t z _ ht => layersLen_zStep tab src emit m.size (1 / ((m.size - 1 : ℕ) : ℚ)) z n t ht)

/-- The result of `extract_impl` does not depend on the layer contents the
`MarchingCubes` struct carried in: the z = 0 prefetch and the first
z-step refill overwrite both size² buffers completely before any read. -/
theorem extractImpl_indep (tab : Tables) (src : ℚ → ℚ → ℚ → ℚ) (emit : Emit)
    (mA mB : MarchingCubes) (hsz : mA.size = mB.size) (hpos : 1 ≤ mB.size)
    (hA1 : mA.layers.1.length = mB.size * mB.size)
    (hA2 : mA.layers.2.length = mB.size * mB.size)
    (hB1 : mB.layers.1.length = mB.size * mB.size)
    (hB2 : mB.layers.2.length = mB.size * mB.size) :
    extractImpl tab src emit mA = extractImpl tab src emit mB := by
  obtain ⟨k, hk⟩ : ∃ k, mB.size = k + 1 := ⟨mB.size - 1, by omega⟩
  rw [hk] at hA1 hA2 hB1 hB2
  unfold extractImpl
  dsimp only
  rw [hsz, hk]
  have hz : ∀ w : ℚ,
      zStep tab src emit (k+1) w (fillZero src (k+1) w (initState mA)) 0
        = zStep tab src emit (k+1) w (fillZero src (k+1) w (initState mB)) 0 := by
    intro w
    unfold zStep fillNext fillZero initState
    dsimp only
    rw [layerFill_indep (fun x y => src ((x : ℚ)*w) ((y : ℚ)*w) 0) (k+1)
          mA.layers.1 mB.layers.1 hA1 hB1,
        layerFill_indep (fun x y => src ((x : ℚ)*w) ((y : ℚ)*w) (((0+1 : ℕ) : ℚ)*w)) (k+1)
          mA.layers.2 mB.layers.2 hA2 hB2]
  rw [List.range_succ_eq_map]
  rw [List.foldl_cons, List.foldl_cons]
  rw [hz]

/-- Claim C8: extraction is idempotent and deterministic. Calling `extract`
twice on the same instance with the same pure source and resolution,
appending to fresh empty vertex/index buffers each time, yields exactly
equal output buffers: the layer buffers carried over from the first call do
not influence the second call's result. -/
theorem claim_C8 (tab : Tables) (src : ℚ → ℚ → ℚ → ℚ) (size : ℕ) (h2 : 2 ≤ size) :
    (MarchingCubes.extract tab src
        ((MarchingCubes.extract tab src (MarchingCubes.new size) [] []).1) [] []).2
      = (MarchingCubes.extract tab src (MarchingCubes.new size) [] []).2 := by
  have hnew1 : (MarchingCubes.new size).layers.1.length
      = (MarchingCubes.new size).size * (MarchingCubes.new size).size := by
    simp [MarchingCubes.new]
  have hnew2 : (MarchingCubes.new size).layers.2.length
      = (MarchingCubes.new size).size * (MarchingCubes.new size).size := by
    simp [MarchingCubes.new]
  have hlen := extractImpl_layers_length tab src plainEmit (MarchingCubes.new size)
    ((MarchingCubes.new size).size * (MarchingCubes.new size).size) hnew1 hnew2
  have hind := extractImpl_indep tab src plainEmit
    ((MarchingCubes.extract tab src (MarchingCubes.new size) [] []).1)
    (MarchingCubes.new size) rfl
    (by show 1 ≤ size; omega)
    hlen.1 hlen.2 hnew1 hnew2
  show ([] ++ (extractImpl tab src plainEmit
        ((MarchingCubes.extract tab src (MarchingCubes.new size) [] []).1)).vertices,
      [] ++ (extractImpl tab src plainEmit
        ((MarchingCubes.extract tab src (MarchingCubes.new size) [] []).1)).indicesLog.map
          Prod.fst)
    = ([] ++ (extractImpl tab src plainEmit (MarchingCubes.new size)).vertices,
      [] ++ (extractImpl tab src plainEmit (MarchingCubes.new size)).indicesLog.map Prod.fst)
  rw [hind]

set_option maxRecDepth 16384 in
/-- Witness for C8: the concrete size-2 extraction run twice on the same
instance yields the same output buffers both times. -/
theorem claim_C8_witness :
    (2 ≤ 2) ∧
    ((MarchingCubes.extract specTables srcC1
        ((MarchingCubes.extract specTables srcC1 (MarchingCubes.new 2) [] []).1) [] []).2
      = (MarchingCubes.extract specTables srcC1 (MarchingCubes.new 2) [] []).2) :=
  ⟨by norm_num, claim_C8 specTables srcC1 2 (by norm_num)⟩

/-- Claim C10: all layer-buffer indexing of `extract_impl` is in bounds.
Both buffers are allocated with length size² and keep that length through
the whole extraction; the refill loops write at y*size + x with x, y <
size, and the per-cube corner reads use ((y + cy)*size + x) + cx with
x, y ≤ size-2 and conforming corner offsets cy, cx ∈ {0, 1}; every such
index is < size². -/
theorem claim_C10 (tab : Tables) (size : ℕ) (h2 : 2 ≤ size) (hc : Conforming tab) :
    (∀ x y, x < size → y < size → y*size + x < size*size) ∧
    (∀ x y i, x + 2 ≤ size → y + 2 ≤ size → i < 8 →
      cornerReadIndex tab size x y i < size*size) ∧
    ((MarchingCubes.new size).layers.1.length = size*size ∧
     (MarchingCubes.new size).layers.2.length = size*size) ∧
    (∀ (src : ℚ → ℚ → ℚ → ℚ) (emit : Emit),
      (extractImpl tab src emit (MarchingCubes.new size)).layer0.length = size*size ∧
      (extractImpl tab src emit (MarchingCubes.new size)).layer1.length = size*size) := by
  refine ⟨?_, ?_, ⟨?_, ?_⟩, ?_⟩
  · intro x y hx hy
    have h1 : (y+1)*size ≤ size*size := Nat.mul_le_mul_right size hy
    have h2b : y*size + x < (y+1)*size := by
      rw [Nat.succ_mul]
      omega
    omega
  · intro x y i hx hy hi
    obtain ⟨c1, c2, c3⟩ := hc.1 i hi
    unfold cornerReadIndex
    have hyc : (y + (tab.corners i).2.1) + 1 ≤ size := by omega
    have h1 : ((y + (tab.corners i).2.1) + 1)*size ≤ size*size := Nat.mul_le_mul_right size hyc
    have h2b : (y + (tab.corners i).2.1)*size + (x + (tab.corners i).1)
        < ((y + (tab.corners i).2.1) + 1)*size := by
      rw [Nat.succ_mul]
      omega
    omega
  · simp [MarchingCubes.new]
  · simp [MarchingCubes.new]
  · intro src emit
    exact extractImpl_layers_length tab src emit (MarchingCubes.new size) (size*size)
      (by simp [MarchingCubes.new]) (by simp [MarchingCubes.new])

set_option maxRecDepth 16384 in
/-- Witness for C10 at size 2 with the concrete conforming tables. -/
theorem claim_C10_witness :
    (1*2 + 1 < 2*2) ∧
    cornerReadIndex specTables 2 0 0 6 < 2*2 ∧
    (MarchingCubes.new 2).layers.1.length = 2*2 ∧
    (extractImpl specTables srcConst plainEmit (MarchingCubes.new 2)).layer0.length = 2*2 :=
  ⟨(claim_C10 specTables 2 (by norm_num) specTables_conforming).1 1 1 (by norm_num) (by norm_num),
   (claim_C10 specTables 2 (by norm_num) specTables_conforming).2.1 0 0 6 (by norm_num)
     (by norm_num) (by norm_num),
   (claim_C10 specTables 2 (by norm_num) specTables_conforming).2.2.1.1,
   ((claim_C10 specTables 2 (by norm_num) specTables_conforming).2.2.2 srcConst plainEmit).1⟩

/-- Claim C3 (amended): construction performs no validation — `new size`
succeeds for every size — and for size = 1 the extraction visits no cubes
and appends nothing to the output buffers, but the source is still sampled
(twice: the z = 0 prefetch and one z-step refill), with the denominator
size-1 = 0 in the coordinate normalisation, rather than being rejected
fail-fast at construction. -/
theorem claim_C3_size_one (tab : Tables) (src : ℚ → ℚ → ℚ → ℚ) (emit : Emit) :
    (extractImpl tab src emit (MarchingCubes.new 1)).emissions = [] ∧
    (extractImpl tab src emit (MarchingCubes.new 1)).indicesLog = [] ∧
    (extractImpl tab src emit (MarchingCubes.new 1)).vertices = [] ∧
    (extractImpl tab src emit (MarchingCubes.new 1)).sampleGrid = [(0, 0, 0), (0, 0, 1)] := by
  have hr : List.range 1 = [0] := rfl
  refine ⟨?_, ?_, ?_, ?_⟩ <;>
    simp [extractImpl, zStep, fillZero, fillNext, initState, MarchingCubes.new, gridPoints, hr]
